import Mathlib

/-!
Verification of the template-instantiation engine `gensources.py` (JGAlgo).

The development shallowly embeds the components named by the specification:
the directive-block parser and resolver of `generate_sourcefile`, the
condition evaluator, the macro-argument parser `find_func_args`, the macro
expansion loop `apply_function`, the per-template driver
`generate_template_sources`, the formatting step `format_source_files`, and
the change-detection orchestration of `main`.  Text is modelled as `List
Char`, input lines (the result of `text.splitlines()`) as `List (List
Char)`, file systems and digest maps as association lists, and every Python
exception as an error value (`none` / `Except.error`).
-/

/-- The `type` tag carried by a block dictionary in `generate_sourcefile`:
`"container"` (the root), `"if"`, `"elif"`, `"else"` and `"endif"`. -/
inductive BTy where
  | container
  | if_
  | elif_
  | else_
  | endif
deriving DecidableEq, Repr

/-- A node of the block tree built by the directive parser: either a literal
line (a plain string appended to the open container) or a block dictionary
with its type tag, optional `condition` entry and nested `blocks` list. -/
inductive Block where
  | line (s : List Char)
  | node (ty : BTy) (cond : Option (List Char)) (children : List Block)

theorem sizeOf_list_pos {α : Type} [SizeOf α] (l : List α) : 0 < sizeOf l := by
  cases l with
  | nil => simp
  | cons a t =>
    simp only [List.cons.sizeOf_spec]
    omega

/-- The test `block["type"] == "else" or eval_condition(block["condition"])`
at the head of the inner loop of `append_lines`.  An `else` arm matches
without reading its condition; otherwise the `condition` entry is read (a
missing entry is Python's `KeyError`, hence `none`) and handed to the
evaluator, whose result is taken by Python truthiness.  The evaluator `ev`
abstracts `eval_condition` (a closure over the environment's constants); it
returns `none` when evaluation raises. -/
def armTest (ev : List Char → Option Bool) (ty : BTy) (cond : Option (List Char)) :
    Option Bool :=
  if ty = .else_ then some true
  else match cond with
    | none => none
    | some c => ev c

mutual

/-- The outer `while block_idx < block_num` loop of `append_lines`: literal
lines are emitted in order and a block dictionary must be an `"if"` head of
a conditional chain (the `assert` on any other type is a raised
`AssertionError`, hence `none`). -/
def append_lines (ev : List Char → Option Bool) : List Block → Option (List (List Char))
  | [] => some []
  | .line s :: rest =>
    match append_lines ev rest with
    | none => none
    | some out => some (s :: out)
  | .node ty cond ch :: rest =>
    if ty = .if_ then append_lines_arm_t ev (armTest ev ty cond) ch rest else none
termination_by blocks => sizeOf blocks
decreasing_by
  all_goals simp_wf
  all_goals omega

/-- The inner `while True` loop of `append_lines`, positioned at an arm
whose test `armTest` already produced the first argument, with body `ch` and
later sibling blocks `rest`.  A matched arm is resolved recursively, then
the scan skips past the chain's `endif` and the outer loop resumes there
(`append_lines_skip`); an unmatched arm advances to the next sibling,
stopping at `endif`.  Index overruns and type-tag reads on plain strings are
the corresponding Python exceptions, hence `none`. -/
def append_lines_arm_t (ev : List Char → Option Bool) :
    Option Bool → List Block → List Block → Option (List (List Char))
  | none, _, _ => none
  | some true, ch, rest =>
    match append_lines ev ch with
    | none => none
    | some inner =>
      match append_lines_skip ev rest with
      | none => none
      | some tail => some (inner ++ tail)
  | some false, ch, rest =>
    match rest with
    | [] => none
    | .line _ :: _ => none
    | .node ty' cond' ch' :: rest' =>
      if ty' = .endif then append_lines ev rest'
      else append_lines_arm_t ev (armTest ev ty' cond') ch' rest'
termination_by t ch rest => sizeOf ch + sizeOf rest
decreasing_by
  all_goals simp_wf
  all_goals (have h1 := sizeOf_list_pos ch; have h2 := sizeOf_list_pos rest; omega)

/-- The scan `block_idx += 1; block = blocks[block_idx]; while block["type"]
!= "endif": ...` performed after a matched arm: advance until a block whose
`type` is `"endif"` is found, then resume the outer loop on the remaining
suffix.  Running off the end of the list is Python's `IndexError`, and
reading `block["type"]` on a plain string is Python's `TypeError`; both are
`none`. -/
def append_lines_skip (ev : List Char → Option Bool) : List Block → Option (List (List Char))
  | [] => none
  | .line _ :: _ => none
  | .node ty _ _ :: rest =>
    if ty = .endif then append_lines ev rest else append_lines_skip ev rest
termination_by blocks => sizeOf blocks
decreasing_by
  all_goals simp_wf

end

/-- One step of the inner `while True` loop of `append_lines`, positioned
at the arm `(ty, cond, ch)` with the later sibling blocks `rest`: compute
the arm test and dispatch. -/
def append_lines_arm (ev : List Char → Option Bool) (ty : BTy)
    (cond : Option (List Char)) (ch : List Block) (rest : List Block) :
    Option (List (List Char)) :=
  append_lines_arm_t ev (armTest ev ty cond) ch rest

theorem append_lines_nil (ev : List Char → Option Bool) :
    append_lines ev ([] : List Block) = some [] := by
  rw [append_lines]

/-- A literal-line block is emitted verbatim and resolution continues. -/
theorem append_lines_cons_line (ev : List Char → Option Bool) (s : List Char)
    (rest : List Block) :
    append_lines ev (.line s :: rest) =
      match append_lines ev rest with
      | none => none
      | some out => some (s :: out) := by
  rw [append_lines]

/-- A block dictionary at the top of a container must be an `"if"` head. -/
theorem append_lines_cons_node (ev : List Char → Option Bool) (ty : BTy)
    (cond : Option (List Char)) (ch rest : List Block) :
    append_lines ev (.node ty cond ch :: rest) =
      if ty = .if_ then append_lines_arm ev ty cond ch rest else none := by
  rw [append_lines]
  rfl

/-- Directive recognizers of the parsing loop of `generate_sourcefile`
(lines 115-147): the four tested line beginnings, in the order tested. -/
def dIf : List Char := ['#', 'i', 'f', ' ']

def dElif : List Char := ['#', 'e', 'l', 'i', 'f', ' ']

def dElse : List Char := ['#', 'e', 'l', 's', 'e']

def dEndif : List Char := ['#', 'e', 'n', 'd', 'i', 'f']

/-- A line the parsing loop treats as a directive (any of the four tested
beginnings) rather than as a literal line. -/
def isDirectiveLine (l : List Char) : Bool :=
  dIf.isPrefixOf l || dElif.isPrefixOf l || dElse.isPrefixOf l || dEndif.isPrefixOf l

/-- An open block on the parser's explicit stack: its type tag, its
`condition` entry and the children accumulated so far.  The Python code
attaches each pushed block to its parent at push time and then mutates it;
the functional model attaches a block to its parent when it is popped, which
yields the same final tree. -/
structure Frame where
  ty : BTy
  cond : Option (List Char)
  children : List Block

/-- The block dictionary a closed frame denotes. -/
def Frame.toBlock (f : Frame) : Block := .node f.ty f.cond f.children

/-- The root `{"type": "container", "blocks": []}` block. -/
def rootFrame : Frame := ⟨.container, none, []⟩

/-- One iteration of `for line in text.splitlines()`.  `stack` holds the
open frames, innermost first; the root container is at the bottom.  An
else-if/else/end-conditional directive with only the root on the stack pops
the root and then evaluates `stack[-1]` on an empty list, Python's
`IndexError`, hence `none`. -/
def parseStep (stack : List Frame) (line : List Char) : Option (List Frame) :=
  if dIf.isPrefixOf line then
    some (⟨.if_, some (line.drop 4), []⟩ :: stack)
  else if dElif.isPrefixOf line then
    match stack with
    | f :: parent :: rest =>
      some (⟨.elif_, some (line.drop 6), []⟩ ::
        ⟨parent.ty, parent.cond, parent.children ++ [f.toBlock]⟩ :: rest)
    | _ => none
  else if dElse.isPrefixOf line then
    match stack with
    | f :: parent :: rest =>
      some (⟨.else_, none, []⟩ ::
        ⟨parent.ty, parent.cond, parent.children ++ [f.toBlock]⟩ :: rest)
    | _ => none
  else if dEndif.isPrefixOf line then
    match stack with
    | f :: parent :: rest =>
      some (⟨parent.ty, parent.cond,
        parent.children ++ [f.toBlock, Block.node .endif none []]⟩ :: rest)
    | _ => none
  else
    match stack with
    | f :: rest => some (⟨f.ty, f.cond, f.children ++ [Block.line line]⟩ :: rest)
    | [] => none

/-- The whole parsing loop over the split lines. -/
def processLines : List (List Char) → List Frame → Option (List Frame)
  | [], st => some st
  | l :: ls, st =>
    match parseStep st l with
    | none => none
    | some st' => processLines ls st'

/-- Folding one open frame into the rest of the stack below it. -/
def closeInto (f : Frame) : List Frame → List Block
  | [] => f.children
  | parent :: rest => closeInto ⟨parent.ty, parent.cond, parent.children ++ [f.toBlock]⟩ rest

/-- Reading the final tree out of the parser state.  In the Python code each
open block dictionary is already attached to its parent, so conditionals
still open at end of input simply remain in the tree (no terminator block is
added for them); the model realizes this by folding the leftover stack. -/
def closeAll : List Frame → List Block
  | [] => []
  | f :: rest => closeInto f rest

/-- Lines 113-147 of `generate_sourcefile`: the block-tree parser.  `none`
is a raised exception (the `IndexError` of an orphan directive). -/
def parseBlocks (lines : List (List Char)) : Option (List Block) :=
  (processLines lines [rootFrame]).map closeAll

/-- An arm of a conditional chain that is inspected and rejected by the
inner loop of `append_lines`: an `"if"` or `"elif"` block whose condition
evaluates to a falsy value. -/
def IsFalseArm (ev : List Char → Option Bool) (b : Block) : Prop :=
  ∃ ty c ch, b = .node ty (some c) ch ∧ (ty = .if_ ∨ ty = .elif_) ∧ ev c = some false

/-- A block dictionary whose `type` tag is not `"endif"` (what the
post-match skip scan steps over). -/
def IsNonEndifNode (b : Block) : Prop :=
  ∃ ty c ch, b = .node ty c ch ∧ ty ≠ .endif

/-- An arm the inner loop of `append_lines` accepts: an `else` arm, or an
`"if"`/`"elif"` arm whose condition evaluates to a truthy value. -/
def ArmMatched (ev : List Char → Option Bool) (ty : BTy) (cond : Option (List Char)) :
    Prop :=
  ty = .else_ ∨ ((ty = .if_ ∨ ty = .elif_) ∧ ∃ c, cond = some c ∧ ev c = some true)

theorem armTest_of_matched {ev : List Char → Option Bool} {ty : BTy}
    {cond : Option (List Char)} (h : ArmMatched ev ty cond) :
    armTest ev ty cond = some true := by
  rcases h with h | ⟨hty, c, hc, hev⟩
  · simp [armTest, h]
  · have : ty ≠ .else_ := by rcases hty with h | h <;> simp [h]
    simp [armTest, this, hc, hev]

/-- The post-match scan steps over non-terminator blocks and resumes the
outer loop right after the chain's terminator. -/
theorem append_lines_skip_past_nodes {ev : List Char → Option Bool}
    {later : List Block} (h : ∀ b ∈ later, IsNonEndifNode b)
    (cond0 : Option (List Char)) (ch0 post : List Block) :
    append_lines_skip ev (later ++ .node .endif cond0 ch0 :: post) =
      append_lines ev post := by
  induction later with
  | nil =>
    rw [List.nil_append, append_lines_skip]
    simp
  | cons b rest ih =>
    obtain ⟨ty, c, ch, rfl, hne⟩ := h b (List.mem_cons_self b rest)
    rw [List.cons_append, append_lines_skip, if_neg hne]
    exact ih (fun b hb => h b (List.mem_cons_of_mem _ hb))

/-- A matched arm is resolved recursively, the scan jumps past the chain's
terminator and resolution continues after it. -/
theorem append_lines_arm_matched {ev : List Char → Option Bool} {ty : BTy}
    {cond : Option (List Char)} (ch : List Block) {later : List Block}
    (cond0 : Option (List Char)) (ch0 post : List Block)
    (hm : ArmMatched ev ty cond) (hl : ∀ b ∈ later, IsNonEndifNode b) :
    append_lines_arm ev ty cond ch (later ++ .node .endif cond0 ch0 :: post) =
      match append_lines ev ch with
      | none => none
      | some inner =>
        match append_lines ev post with
        | none => none
        | some tail => some (inner ++ tail) := by
  rw [append_lines_arm, armTest_of_matched hm, append_lines_arm_t]
  cases append_lines ev ch with
  | none => rfl
  | some inner =>
    rw [append_lines_skip_past_nodes hl cond0 ch0 post]

/-- The continuation of the inner loop of `append_lines` after an arm was
inspected and rejected: look at the next sibling block. -/
def armContinue (ev : List Char → Option Bool) : List Block → Option (List (List Char))
  | [] => none
  | .line _ :: _ => none
  | .node ty' cond' ch' :: rest' =>
    if ty' = .endif then append_lines ev rest'
    else append_lines_arm ev ty' cond' ch' rest'

theorem append_lines_arm_false {ev : List Char → Option Bool} {ty : BTy}
    {c : List Char} (ch : List Block) (rest : List Block)
    (hty : ty = .if_ ∨ ty = .elif_) (hev : ev c = some false) :
    append_lines_arm ev ty (some c) ch rest = armContinue ev rest := by
  have hne : ty ≠ .else_ := by rcases hty with h | h <;> simp [h]
  rw [append_lines_arm]
  simp only [armTest, if_neg hne, hev]
  cases rest with
  | nil => rw [append_lines_arm_t]; rfl
  | cons b rest' =>
    cases b with
    | line s => rw [append_lines_arm_t]; rfl
    | node ty' cond' ch' => rw [append_lines_arm_t]; rfl

/-- A run of rejected arms is walked over without touching any of its
arms' bodies, ending at whatever block follows the run. -/
theorem append_lines_arm_false_walk {ev : List Char → Option Bool}
    (arms : List Block) :
    ∀ {ty : BTy} {c : List Char} (ch : List Block) (rest : List Block),
    (ty = .if_ ∨ ty = .elif_) → ev c = some false →
    (∀ b ∈ arms, IsFalseArm ev b) →
    append_lines_arm ev ty (some c) ch (arms ++ rest) = armContinue ev rest := by
  induction arms with
  | nil =>
    intro ty c ch rest hty hev _
    exact append_lines_arm_false ch rest hty hev
  | cons a arms' ih =>
    intro ty c ch rest hty hev hall
    obtain ⟨tya, ca, cha, rfl, htya, heva⟩ := hall a (List.mem_cons_self a arms')
    have hne : tya ≠ .endif := by rcases htya with h | h <;> simp [h]
    rw [List.cons_append, append_lines_arm_false ch _ hty hev]
    rw [armContinue, if_neg hne]
    exact ih cha rest htya heva
      (fun b hb => hall b (List.mem_cons_of_mem _ hb))

mutual

/-- No literal-line block of the tree is a directive line. -/
def NoDirBlock : Block → Prop
  | .line s => isDirectiveLine s = false
  | .node _ _ ch => NoDirBlocks ch

/-- No literal-line block of any tree in the list is a directive line. -/
def NoDirBlocks : List Block → Prop
  | [] => True
  | b :: r => NoDirBlock b ∧ NoDirBlocks r

end

/-- Lines emitted by the resolver are literal-line blocks of the tree, so a
tree without directive literal lines resolves to directive-free output. -/
theorem append_lines_no_directive (ev : List Char → Option Bool) (blocks : List Block) :
    ∀ out, NoDirBlocks blocks → append_lines ev blocks = some out →
      ∀ s ∈ out, isDirectiveLine s = false := by
  induction blocks using append_lines.induct ev _
    (fun t ch rest => ∀ out, NoDirBlocks ch → NoDirBlocks rest →
      append_lines_arm_t ev t ch rest = some out → ∀ s ∈ out, isDirectiveLine s = false)
    (fun bs => ∀ out, NoDirBlocks bs → append_lines_skip ev bs = some out →
      ∀ s ∈ out, isDirectiveLine s = false) with
  | case1 =>
    intro out _ h
    rw [append_lines_nil] at h
    injection h with h
    subst h
    intro s hs
    simp at hs
  | case2 s rest hrest ih =>
    intro out hnd h
    rw [append_lines_cons_line, hrest] at h
    exact absurd h (by simp)
  | case3 s rest out0 hrest ih =>
    intro out hnd h
    rw [append_lines_cons_line, hrest] at h
    injection h with h
    subst h
    intro t ht
    rcases List.mem_cons.mp ht with rfl | ht
    · exact hnd.1
    · exact ih out0 hnd.2 hrest t ht
  | case4 cond ch rest ih =>
    intro out hnd h
    rw [append_lines_cons_node, if_pos rfl, append_lines_arm] at h
    exact ih out hnd.1 hnd.2 h
  | case5 ty cond ch rest hty =>
    intro out _ h
    rw [append_lines_cons_node, if_neg hty] at h
    exact absurd h (by simp)
  | case6 ch rest out hc hr h s hs =>
    rw [append_lines_arm_t] at h
    exact absurd h (by simp)
  | case7 ch rest hch ih out hc hr h s hs =>
    rw [append_lines_arm_t, hch] at h
    exact absurd h (by simp)
  | case8 ch rest out0 hch hskip ih1 ih3 out hc hr h s hs =>
    rw [append_lines_arm_t, hch, hskip] at h
    exact absurd h (by simp)
  | case9 ch rest inner hch tail hskip ih1 ih3 out hc hr h s hs =>
    rw [append_lines_arm_t, hch, hskip] at h
    injection h with h
    subst h
    rcases List.mem_append.mp hs with hs' | hs'
    · exact ih1 inner hc hch s hs'
    · exact ih3 tail hr hskip s hs'
  | case10 ch out hc hr h s hs =>
    rw [append_lines_arm_t] at h
    exact absurd h (by simp)
  | case11 ch s0 rest out hc hr h s hs =>
    rw [append_lines_arm_t] at h
    exact absurd h (by simp)
  | case12 ch cond ch1 rest ih out hc hr h s hs =>
    rw [append_lines_arm_t, if_pos rfl] at h
    exact ih out hr.2 h s hs
  | case13 ch ty cond ch1 rest hty ih out hc hr h s hs =>
    rw [append_lines_arm_t, if_neg hty] at h
    exact ih out hr.1 hr.2 h s hs
  | case14 out hnd h s hs =>
    rw [append_lines_skip] at h
    exact absurd h (by simp)
  | case15 s0 rest out hnd h s hs =>
    rw [append_lines_skip] at h
    exact absurd h (by simp)
  | case16 cond ch rest ih out hnd h s hs =>
    rw [append_lines_skip, if_pos rfl] at h
    exact ih out hnd.2 h s hs
  | case17 ty cond ch rest hty ih out hnd h s hs =>
    rw [append_lines_skip, if_neg hty] at h
    exact ih out hnd.2 h s hs

theorem NoDirBlocks_append {xs ys : List Block} (hx : NoDirBlocks xs)
    (hy : NoDirBlocks ys) : NoDirBlocks (xs ++ ys) := by
  induction xs with
  | nil => simpa using hy
  | cons b r ih =>
    rw [NoDirBlocks] at hx
    rw [List.cons_append, NoDirBlocks]
    exact ⟨hx.1, ih hx.2⟩

/-- Every frame on the parser stack holds only non-directive literal
lines. -/
def StackOk (st : List Frame) : Prop := ∀ f ∈ st, NoDirBlocks f.children

theorem parseStep_ok {st : List Frame} {l : List Char} {st' : List Frame}
    (h : StackOk st) (hp : parseStep st l = some st') : StackOk st' := by
  unfold parseStep at hp
  split_ifs at hp with h1 h2 h3 h4
  · injection hp with hp
    subst hp
    intro f hf
    rcases List.mem_cons.mp hf with rfl | hf
    · rw [NoDirBlocks]
      trivial
    · exact h f hf
  · match st, hp with
    | f0 :: parent :: rest, hp =>
      injection hp with hp
      subst hp
      intro f hf
      rcases List.mem_cons.mp hf with rfl | hf
      · rw [NoDirBlocks]
        trivial
      · rcases List.mem_cons.mp hf with rfl | hf
        · refine NoDirBlocks_append (h parent (by simp)) ?_
          rw [NoDirBlocks, Frame.toBlock, NoDirBlock]
          exact ⟨h f0 (by simp), trivial⟩
        · exact h f (by simp [hf])
  · match st, hp with
    | f0 :: parent :: rest, hp =>
      injection hp with hp
      subst hp
      intro f hf
      rcases List.mem_cons.mp hf with rfl | hf
      · rw [NoDirBlocks]
        trivial
      · rcases List.mem_cons.mp hf with rfl | hf
        · refine NoDirBlocks_append (h parent (by simp)) ?_
          rw [NoDirBlocks, Frame.toBlock, NoDirBlock]
          exact ⟨h f0 (by simp), trivial⟩
        · exact h f (by simp [hf])
  · match st, hp with
    | f0 :: parent :: rest, hp =>
      injection hp with hp
      subst hp
      intro f hf
      rcases List.mem_cons.mp hf with rfl | hf
      · refine NoDirBlocks_append (h parent (by simp)) ?_
        rw [NoDirBlocks, Frame.toBlock, NoDirBlock]
        refine ⟨h f0 (by simp), ?_⟩
        rw [NoDirBlocks, NoDirBlock]
        exact ⟨trivial, trivial⟩
      · exact h f (by simp [hf])
  · match st, hp with
    | f0 :: rest, hp =>
      injection hp with hp
      subst hp
      intro f hf
      rcases List.mem_cons.mp hf with rfl | hf
      · refine NoDirBlocks_append (h f0 (by simp)) ?_
        rw [NoDirBlocks, NoDirBlock]
        refine ⟨?_, trivial⟩
        simp [isDirectiveLine, h1, h2, h3, h4]
      · exact h f (by simp [hf])

theorem processLines_ok {lines : List (List Char)} :
    ∀ {st st' : List Frame}, StackOk st → processLines lines st = some st' →
      StackOk st' := by
  induction lines with
  | nil =>
    intro st st' h hp
    rw [processLines] at hp
    injection hp with hp
    subst hp
    exact h
  | cons l ls ih =>
    intro st st' h hp
    rw [processLines] at hp
    cases hps : parseStep st l with
    | none => rw [hps] at hp; exact absurd hp (by simp)
    | some st1 =>
      rw [hps] at hp
      exact ih (parseStep_ok h hps) hp

theorem closeInto_ok {rest : List Frame} :
    ∀ {f : Frame}, NoDirBlocks f.children → StackOk rest →
      NoDirBlocks (closeInto f rest) := by
  induction rest with
  | nil =>
    intro f hf _
    rw [closeInto]
    exact hf
  | cons parent rest' ih =>
    intro f hf h
    rw [closeInto]
    refine ih ?_ (fun g hg => h g (by simp [hg]))
    refine NoDirBlocks_append (h parent (by simp)) ?_
    rw [NoDirBlocks, Frame.toBlock, NoDirBlock]
    exact ⟨hf, trivial⟩

theorem closeAll_ok {st : List Frame} (h : StackOk st) :
    NoDirBlocks (closeAll st) := by
  cases st with
  | nil =>
    rw [closeAll]
    trivial
  | cons f rest =>
    rw [closeAll]
    exact closeInto_ok (h f (by simp)) (fun g hg => h g (by simp [hg]))

/-- The parser never stores a directive line as a literal-line block. -/
theorem parseBlocks_no_directive {lines : List (List Char)} {blocks : List Block}
    (h : parseBlocks lines = some blocks) : NoDirBlocks blocks := by
  unfold parseBlocks at h
  cases hps : processLines lines [rootFrame] with
  | none => rw [hps] at h; exact absurd h (by simp)
  | some st =>
    rw [hps] at h
    injection h with h
    subst h
    refine closeAll_ok (processLines_ok ?_ hps)
    intro f hf
    rcases List.mem_cons.mp hf with rfl | hf
    · rw [rootFrame, NoDirBlocks]
      trivial
    · exact absurd hf (by simp)

/-- The first block of a chain (as delivered by the parser) carries the
`"if"` tag; when rejected arms precede the matched one the `"if"` tag sits
on the first rejected arm, otherwise on the matched arm itself. -/
def ChainHeadIf (falseArms : List Block) (ty : BTy) : Prop :=
  match falseArms with
  | [] => ty = .if_
  | b :: _ => ∃ c ch, b = Block.node .if_ (some c) ch

/-- C10: a well-formed conditional chain with no else arm all of whose
conditions evaluate false contributes no lines at all, and resolution
continues with the content after the chain's `#endif` terminator. -/
theorem resolver_all_false_no_else (ev : List Char → Option Bool)
    (c0 : List Char) (ch0 : List Block) (moreArms post : List Block)
    (h0 : ev c0 = some false) (hm : ∀ b ∈ moreArms, IsFalseArm ev b) :
    append_lines ev (Block.node .if_ (some c0) ch0 ::
        (moreArms ++ Block.node .endif none [] :: post)) =
      append_lines ev post := by
  rw [append_lines_cons_node, if_pos rfl]
  rw [append_lines_arm_false_walk moreArms ch0 _ (Or.inl rfl) h0 hm]
  rw [armContinue, if_pos rfl]

/-- Witness for `resolver_all_false_no_else` at a concrete chain. -/
theorem resolver_all_false_no_else_witness :
    append_lines (fun _ => some false)
        (Block.node .if_ (some ['c']) [Block.line ['a']] ::
          ([Block.node .elif_ (some ['d']) [Block.line ['b']]] ++
            Block.node .endif none [] :: [Block.line ['z']])) =
      append_lines (fun _ => some false) [Block.line ['z']] :=
  resolver_all_false_no_else (fun _ => some false) ['c'] [Block.line ['a']]
    [Block.node .elif_ (some ['d']) [Block.line ['b']]] [Block.line ['z']] rfl
    (by
      intro b hb
      rcases List.mem_singleton.mp hb with rfl
      exact ⟨.elif_, ['d'], [Block.line ['b']], rfl, Or.inr rfl, rfl⟩)

/-- C1: the Block Resolver emits exactly the lines of the first matching
arm of a conditional chain — rejected arms contribute nothing, arms after
the matched one are never evaluated (their conditions are unconstrained,
even erroneous), resolution continues after the terminator — and output of
resolving a parsed template never contains a directive line. -/
theorem resolver_first_true_arm_and_no_directives :
    (∀ (ev : List Char → Option Bool) (falseArms : List Block) (ty : BTy)
        (cond : Option (List Char)) (ch laterArms post : List Block),
      (∀ b ∈ falseArms, IsFalseArm ev b) →
      ChainHeadIf falseArms ty →
      ArmMatched ev ty cond →
      (∀ b ∈ laterArms, IsNonEndifNode b) →
      append_lines ev (falseArms ++ Block.node ty cond ch ::
          (laterArms ++ Block.node .endif none [] :: post)) =
        (append_lines ev ch).bind
          (fun inner => (append_lines ev post).map (fun tail => inner ++ tail))) ∧
    (∀ (lines : List (List Char)) (blocks : List Block)
        (ev : List Char → Option Bool) (out : List (List Char)),
      parseBlocks lines = some blocks → append_lines ev blocks = some out →
      ∀ s ∈ out, isDirectiveLine s = false) := by
  constructor
  · intro ev falseArms ty cond ch laterArms post hfa hhead hm hl
    have harm : append_lines_arm ev ty cond ch
        (laterArms ++ Block.node .endif none [] :: post) =
        (append_lines ev ch).bind
          (fun inner => (append_lines ev post).map (fun tail => inner ++ tail)) := by
      rw [append_lines_arm_matched ch none [] post hm hl]
      cases append_lines ev ch with
      | none => rfl
      | some inner =>
        cases append_lines ev post with
        | none => rfl
        | some tail => rfl
    have htyne : ty ≠ .endif := by
      rcases hm with h | ⟨h, _⟩
      · simp [h]
      · rcases h with h | h <;> simp [h]
    cases falseArms with
    | nil =>
      rw [ChainHeadIf] at hhead
      subst hhead
      rw [List.nil_append, append_lines_cons_node, if_pos rfl]
      exact harm
    | cons b falseArms' =>
      rw [ChainHeadIf] at hhead
      obtain ⟨c0, ch0, rfl⟩ := hhead
      obtain ⟨ty0, c0', ch0', heq, -, hev0⟩ := hfa _ (List.mem_cons_self _ _)
      injection heq with hty0 hcond0 hch0
      injection hcond0 with hcond0
      rw [← hcond0] at hev0
      rw [List.cons_append, append_lines_cons_node, if_pos rfl]
      rw [append_lines_arm_false_walk falseArms' ch0
        (Block.node ty cond ch :: (laterArms ++ Block.node .endif none [] :: post))
        (Or.inl rfl) hev0 (fun b hb => hfa b (List.mem_cons_of_mem _ hb))]
      rw [armContinue, if_neg htyne]
      exact harm
  · intro lines blocks ev out hparse hres
    exact append_lines_no_directive ev blocks out (parseBlocks_no_directive hparse) hres

/-- Witness for `resolver_first_true_arm_and_no_directives`: a chain whose
`#if` arm is false and whose `#elif` arm is true, followed by an unevaluated
`#else` arm, and a parsed-and-resolved concrete template. -/
theorem resolver_first_true_arm_witness :
    (append_lines (fun c => if c = ['t'] then some true else some false)
        ([Block.node .if_ (some ['f']) [Block.line ['a']]] ++
          Block.node .elif_ (some ['t']) [Block.line ['b']] ::
            ([Block.node .else_ none [Block.line ['x']]] ++
              Block.node .endif none [] :: [Block.line ['z']])) =
      (append_lines (fun c => if c = ['t'] then some true else some false)
          [Block.line ['b']]).bind
        (fun inner =>
          (append_lines (fun c => if c = ['t'] then some true else some false)
              [Block.line ['z']]).map (fun tail => inner ++ tail))) ∧
    isDirectiveLine ['A'] = false := by
  constructor
  · exact resolver_first_true_arm_and_no_directives.1
      (fun c => if c = ['t'] then some true else some false)
      [Block.node .if_ (some ['f']) [Block.line ['a']]] .elif_ (some ['t'])
      [Block.line ['b']] [Block.node .else_ none [Block.line ['x']]]
      [Block.line ['z']]
      (by
        intro b hb
        rcases List.mem_singleton.mp hb with rfl
        exact ⟨.if_, ['f'], [Block.line ['a']], rfl, Or.inl rfl, by decide⟩)
      ⟨['f'], [Block.line ['a']], rfl⟩
      (Or.inr ⟨Or.inr rfl, ['t'], rfl, by decide⟩)
      (by
        intro b hb
        rcases List.mem_singleton.mp hb with rfl
        exact ⟨.else_, none, [Block.line ['x']], rfl, by decide⟩)
  · exact resolver_first_true_arm_and_no_directives.2
      [['#', 'i', 'f', ' ', 't'], ['A'], ['#', 'e', 'n', 'd', 'i', 'f']]
      [Block.node .if_ (some ['t']) [Block.line ['A']], Block.node .endif none []]
      (fun _ => some true) [['A']] rfl
      (by simp [append_lines_cons_node, append_lines_cons_line, append_lines_nil,
        append_lines_arm, append_lines_arm_t, append_lines_skip, armTest])
      ['A'] (by simp)

theorem dElif_not_dIf {l : List Char} (h : dElif.isPrefixOf l = true) :
    dIf.isPrefixOf l = false := by
  match l with
  | [] => simp [dElif, List.isPrefixOf] at h
  | [c1] => simp [dElif, List.isPrefixOf] at h
  | c1 :: c2 :: rest =>
    simp [dElif, List.isPrefixOf] at h
    obtain ⟨h1, h2, -⟩ := h
    subst h1
    subst h2
    rfl

theorem dElse_not_dIf {l : List Char} (h : dElse.isPrefixOf l = true) :
    dIf.isPrefixOf l = false := by
  match l with
  | [] => simp [dElse, List.isPrefixOf] at h
  | [c1] => simp [dElse, List.isPrefixOf] at h
  | c1 :: c2 :: rest =>
    simp [dElse, List.isPrefixOf] at h
    obtain ⟨h1, h2, -⟩ := h
    subst h1
    subst h2
    rfl

theorem dElse_not_dElif {l : List Char} (h : dElse.isPrefixOf l = true) :
    dElif.isPrefixOf l = false := by
  match l with
  | [] => simp [dElse, List.isPrefixOf] at h
  | [c1] => simp [dElse, List.isPrefixOf] at h
  | [c1, c2] => simp [dElse, List.isPrefixOf] at h
  | [c1, c2, c3] => simp [dElse, List.isPrefixOf] at h
  | c1 :: c2 :: c3 :: c4 :: rest =>
    simp [dElse, List.isPrefixOf] at h
    obtain ⟨h1, h2, h3, h4, -⟩ := h
    subst h1
    subst h2
    subst h3
    subst h4
    rfl

theorem dEndif_not_dIf {l : List Char} (h : dEndif.isPrefixOf l = true) :
    dIf.isPrefixOf l = false := by
  match l with
  | [] => simp [dEndif, List.isPrefixOf] at h
  | [c1] => simp [dEndif, List.isPrefixOf] at h
  | c1 :: c2 :: rest =>
    simp [dEndif, List.isPrefixOf] at h
    obtain ⟨h1, h2, -⟩ := h
    subst h1
    subst h2
    rfl

theorem dEndif_not_dElif {l : List Char} (h : dEndif.isPrefixOf l = true) :
    dElif.isPrefixOf l = false := by
  match l with
  | [] => simp [dEndif, List.isPrefixOf] at h
  | [c1] => simp [dEndif, List.isPrefixOf] at h
  | [c1, c2] => simp [dEndif, List.isPrefixOf] at h
  | c1 :: c2 :: c3 :: rest =>
    simp [dEndif, List.isPrefixOf] at h
    obtain ⟨h1, h2, h3, -⟩ := h
    subst h1
    subst h2
    subst h3
    rfl

theorem dEndif_not_dElse {l : List Char} (h : dEndif.isPrefixOf l = true) :
    dElse.isPrefixOf l = false := by
  match l with
  | [] => simp [dEndif, List.isPrefixOf] at h
  | [c1] => simp [dEndif, List.isPrefixOf] at h
  | [c1, c2] => simp [dEndif, List.isPrefixOf] at h
  | c1 :: c2 :: c3 :: rest =>
    simp [dEndif, List.isPrefixOf] at h
    obtain ⟨h1, h2, h3, -⟩ := h
    subst h1
    subst h2
    subst h3
    rfl

/-- A line the specification calls an else-if, else or end-conditional
directive. -/
def isOrphanableDirective (l : List Char) : Bool :=
  dElif.isPrefixOf l || dElse.isPrefixOf l || dEndif.isPrefixOf l

/-- An else-if/else/end-conditional directive seen when only the root is on
the stack raises (`stack.pop()` removes the root and `stack[-1]` fails). -/
theorem parseStep_orphan {f : Frame} {l : List Char}
    (h : isOrphanableDirective l = true) : parseStep [f] l = none := by
  simp only [isOrphanableDirective, Bool.or_eq_true] at h
  rcases h with (h1 | h1) | h1
  · rw [parseStep, if_neg (by simp [dElif_not_dIf h1]), if_pos h1]
    intro a b c hc
    simp at hc
  · rw [parseStep, if_neg (by simp [dElse_not_dIf h1]),
      if_neg (by simp [dElse_not_dElif h1]), if_pos h1]
    intro a b c hc
    simp at hc
  · rw [parseStep, if_neg (by simp [dEndif_not_dIf h1]),
      if_neg (by simp [dEndif_not_dElif h1]),
      if_neg (by simp [dEndif_not_dElse h1]), if_pos h1]
    intro a b c hc
    simp at hc

theorem processLines_append {a b : List (List Char)} :
    ∀ {st : List Frame}, processLines (a ++ b) st =
      (processLines a st).bind (fun st' => processLines b st') := by
  induction a with
  | nil =>
    intro st
    rw [List.nil_append, processLines]
    rfl
  | cons l ls ih =>
    intro st
    rw [List.cons_append, processLines, processLines]
    cases parseStep st l with
    | none => rfl
    | some st1 => exact ih

/-- C2 (amended): an else-if/else/end-conditional directive with no open
conditional makes the parser fail, but no end-of-input check exists — the
parser succeeds on any input it can process line by line, conditionals still
open at end of input included. -/
theorem parser_orphan_fails_no_eof_check :
    (∀ (pre : List (List Char)) (line : List Char) (rest : List (List Char))
        (f : Frame),
      processLines pre [rootFrame] = some [f] →
      isOrphanableDirective line = true →
      parseBlocks (pre ++ line :: rest) = none) ∧
    (∀ (lines : List (List Char)) (st : List Frame),
      processLines lines [rootFrame] = some st →
      parseBlocks lines = some (closeAll st)) := by
  constructor
  · intro pre line rest f hpre horph
    unfold parseBlocks
    rw [processLines_append, hpre]
    rw [Option.some_bind, processLines, parseStep_orphan horph]
    rfl
  · intro lines st h
    unfold parseBlocks
    rw [h]
    rfl

/-- Witness for `parser_orphan_fails_no_eof_check`: an orphan `#endif`
fails; a directive-free input parses to its literal lines. -/
theorem parser_orphan_fails_witness :
    parseBlocks [['#', 'e', 'n', 'd', 'i', 'f']] = none ∧
    parseBlocks [['A']] =
      some (closeAll [⟨.container, none, [Block.line ['A']]⟩]) :=
  ⟨parser_orphan_fails_no_eof_check.1 [] ['#', 'e', 'n', 'd', 'i', 'f'] []
      rootFrame rfl (by decide),
    parser_orphan_fails_no_eof_check.2 [['A']]
      [⟨.container, none, [Block.line ['A']]⟩] rfl⟩

/-- C2 counterexample: an input whose conditional is still open at end of
input is parsed successfully — the claimed `StructureError` is not raised by
the parser (the failure only surfaces later, during resolution). -/
theorem parser_open_at_eof_succeeds :
    parseBlocks [['#', 'i', 'f', ' ', 'c']] =
      some [Block.node .if_ (some ['c']) []] := rfl

/-- Python's `str.isspace` on the characters that can occur in the ASCII
templates (space, tab, newline, carriage return, vertical tab, form
feed). -/
def pyIsSpace (c : Char) : Bool :=
  c == ' ' || c == '\t' || c == '\n' || c == '\r' || c == '\x0b' || c == '\x0c'

/-- The `while True` loop of `find_func_args` (lines 210-231), carrying the
nesting depth `open_parenthesis`, the finished `words` and the `word` being
accumulated; the text is the suffix at index `begin`.  Note that the loop
first skips every whitespace character wherever it occurs, so whitespace
never enters a word.  Exhausting the text while the call is unterminated is
Python's `IndexError`, hence `none`. -/
def findArgs (depth : Nat) (words : List (List Char)) (word : List Char) :
    List Char → Option (List (List Char) × List Char)
  | [] => none
  | c :: rest =>
    if pyIsSpace c then findArgs depth words word rest
    else if c = '(' then findArgs (depth + 1) words (word ++ [c]) rest
    else if c = ')' then
      if depth = 1 then some (words ++ [word], rest)
      else findArgs (depth - 1) words (word ++ [c]) rest
    else if c = ',' ∧ depth = 1 then findArgs depth (words ++ [word]) [] rest
    else findArgs depth words (word ++ [c]) rest

/-- Lines 207-231: `find_func_args(text, begin)` on the suffix of `text`
starting at `begin`.  A suffix not starting with an open parenthesis is the
raised `ValueError` (or the `IndexError` of an empty suffix), hence
`none`; otherwise the result is the parsed argument words and the suffix
after the matching close parenthesis (`text[end:]`). -/
def find_func_args : List Char → Option (List (List Char) × List Char)
  | '(' :: rest => findArgs 1 [] [] rest
  | _ => none

/-- The argument scanner behaves as if every whitespace character of the
text had been deleted first: whitespace neither separates arguments nor
survives inside them. -/
theorem findArgs_filter_ws (text : List Char) :
    ∀ (depth : Nat) (words : List (List Char)) (word : List Char),
      (findArgs depth words word text).map Prod.fst =
        (findArgs depth words word (text.filter (fun c => !pyIsSpace c))).map
          Prod.fst := by
  induction text with
  | nil => intro depth words word; rfl
  | cons c rest ih =>
    intro depth words word
    by_cases hsp : pyIsSpace c = true
    · rw [findArgs, if_pos hsp, List.filter_cons_of_neg (by simp [hsp])]
      exact ih depth words word
    · rw [List.filter_cons_of_pos (by simp [hsp])]
      rw [findArgs, if_neg hsp, findArgs, if_neg hsp]
      by_cases h1 : c = '('
      · rw [if_pos h1, if_pos h1]
        exact ih _ _ _
      · rw [if_neg h1, if_neg h1]
        by_cases h2 : c = ')'
        · rw [if_pos h2, if_pos h2]
          by_cases h3 : depth = 1
          · rw [if_pos h3, if_pos h3]
            rfl
          · rw [if_neg h3, if_neg h3]
            exact ih _ _ _
        · rw [if_neg h2, if_neg h2]
          by_cases h4 : c = ',' ∧ depth = 1
          · rw [if_pos h4, if_pos h4]
            exact ih _ _ _
          · rw [if_neg h4, if_neg h4]
            exact ih _ _ _

/-- C4 counterexample: the nested call `FOO(a, BAR(b, c), d)` parses with
the space inside the nested argument removed — `BAR(b,c)`, not the
whitespace-trimmed `BAR(b, c)` the claim states. -/
theorem find_func_args_strips_inner_ws :
    find_func_args "(a, BAR(b, c), d)".toList =
      some (["a".toList, "BAR(b,c)".toList, "d".toList], []) ∧
    "BAR(b,c)".toList ≠ "BAR(b, c)".toList := by
  constructor
  · rfl
  · decide

/-- C4 (amended): argument parsing splits only on commas at
parenthesis-nesting depth 1 and nested parentheses neither terminate the
list nor separate arguments, but every whitespace character anywhere in an
argument is deleted (not merely trimmed at the ends): scanning a call is
equivalent to scanning it with all whitespace removed, and
`FOO(a, BAR(b, c), d)` yields the arguments `a`, `BAR(b,c)`, `d`. -/
theorem find_func_args_depth_one_split :
    (∀ (text : List Char),
      (find_func_args ('(' :: text)).map Prod.fst =
        (find_func_args ('(' :: text.filter (fun c => !pyIsSpace c))).map
          Prod.fst) ∧
    find_func_args "(a, BAR(b, c), d)".toList =
      some (["a".toList, "BAR(b,c)".toList, "d".toList], []) := by
  constructor
  · intro text
    rw [find_func_args, find_func_args]
    exact findArgs_filter_ws text 1 [] []
  · rfl

/-- Result of one macro pass: the final text, a raised exception, or fuel
exhaustion (the Python loop need not terminate, since the scan resumes at
the start of each spliced replacement). -/
inductive AFRes where
  | ok (text : List Char)
  | err
  | fuelOut
deriving DecidableEq

/-- `text.find(pattern, begin)` on the suffix of the text from `begin`:
split the suffix at the first occurrence of `pattern`, returning the part
before it and the part after it. -/
def findSplit (pattern : List Char) : List Char → Option (List Char × List Char)
  | [] => if pattern.isPrefixOf [] then some ([], []) else none
  | c :: rest =>
    if pattern.isPrefixOf (c :: rest) then some ([], (c :: rest).drop pattern.length)
    else (findSplit pattern rest).map (fun p => (c :: p.1, p.2))

/-- Lines 101-108, `apply_function`: repeatedly find the macro name from the
current scan position `begin`, parse its argument list, splice the
function's replacement in place of the whole call and search again from the
same position (the start of the replacement).  `done` is `text[:begin]`,
never searched again; `rest` is `text[begin:]`.  A name occurrence not
followed by a well-formed parenthesized list is the propagated
`ValueError`/`IndexError` of `find_func_args`, hence `.err`. -/
def apply_function (funcName : List Char)
    (func : List (List Char) → Option (List Char)) :
    Nat → List Char → List Char → AFRes
  | 0, _, _ => .fuelOut
  | fuel + 1, done, rest =>
    match findSplit funcName rest with
    | none => .ok (done ++ rest)
    | some (pre, afterName) =>
      match find_func_args afterName with
      | none => .err
      | some (words, afterArgs) =>
        match func words with
        | none => .err
        | some repl => apply_function funcName func fuel (done ++ pre) (repl ++ afterArgs)

/-- Lines 198-200 of `generate_sourcefile`: apply every registered macro,
one full pass per name, in the given (reverse-lexicographically sorted)
order. -/
def apply_functions (fuel : Nat) :
    List (List Char × (List (List Char) → Option (List Char))) → List Char → AFRes
  | [], text => .ok text
  | (n, f) :: fns, text =>
    match apply_function n f fuel [] text with
    | .ok t => apply_functions fuel fns t
    | r => r

/-- The text a finished pass returns splits into an already-scanned part
and a suffix in which the scan finds no further occurrence of the name. -/
def ScanExhausted (name out : List Char) : Prop :=
  ∃ d r, out = d ++ r ∧ findSplit name r = none

theorem apply_function_ok_scan {name : List Char}
    {f : List (List Char) → Option (List Char)} :
    ∀ {fuel : Nat} {done rest out : List Char},
      apply_function name f fuel done rest = .ok out → ScanExhausted name out := by
  intro fuel
  induction fuel with
  | zero =>
    intro done rest out h
    rw [apply_function] at h
    exact absurd h (by simp)
  | succ n ih =>
    intro done rest out h
    rw [apply_function] at h
    cases hfs : findSplit name rest with
    | none =>
      rw [hfs] at h
      injection h with h
      exact ⟨done, rest, h.symm, hfs⟩
    | some p =>
      obtain ⟨pre, afterName⟩ := p
      rw [hfs] at h
      dsimp only at h
      cases hfa : find_func_args afterName with
      | none => rw [hfa] at h; exact absurd h (by simp)
      | some q =>
        obtain ⟨words, afterArgs⟩ := q
        rw [hfa] at h
        dsimp only at h
        cases hf : f words with
        | none => rw [hf] at h; exact absurd h (by simp)
        | some repl =>
          rw [hf] at h
          exact ih h

/-- C5 counterexample: spliced text IS re-scanned within the same name's
pass.  With `F(a) ↦ F(b)` and `F(b) ↦ c`, one pass over `F(a)` returns `c`:
the spliced `F(b)` was found again and expanded.  Were spliced text not
re-scanned, the pass would return `F(b)`. -/
theorem apply_function_rescans_splice :
    apply_function "F".toList
        (fun ws =>
          if ws = ["a".toList] then some "F(b)".toList
          else if ws = ["b".toList] then some "c".toList else none)
        10 [] "F(a)".toList = .ok "c".toList ∧
      "c".toList ≠ "F(b)".toList := by
  constructor
  · rfl
  · decide

/-- C5 (amended): a pass for one name repeats until the scan — which
resumes at the start of each spliced replacement, re-scanning and
re-expanding spliced text — finds no further occurrence at or after the
scan position; macro calls introduced into the text by a later-processed
name's replacement survive all passes, so a registered macro name may
remain followed by an unexpanded argument list. -/
theorem apply_function_pass_behavior :
    (∀ (name : List Char) (f : List (List Char) → Option (List Char))
        (fuel : Nat) (done rest out : List Char),
      apply_function name f fuel done rest = .ok out → ScanExhausted name out) ∧
    apply_function "G".toList
        (fun ws =>
          if ws = ["a".toList] then some "G(b)".toList
          else if ws = ["b".toList] then some "e".toList else none)
        10 [] "G(a)".toList = .ok "e".toList ∧
    apply_functions 10
        [("Z".toList, fun _ => some "w".toList),
          ("A".toList, fun _ => some "Z(q)".toList)]
        "A(x)".toList = .ok "Z(q)".toList := by
  refine ⟨?_, rfl, rfl⟩
  intro name f fuel done rest out h
  exact apply_function_ok_scan h

/-- Witness for `apply_function_pass_behavior`: a pass over text without
the name returns it unchanged, and the result is scan-exhausted. -/
theorem apply_function_pass_behavior_witness :
    ScanExhausted "Q".toList "ab".toList :=
  apply_function_pass_behavior.1 "Q".toList (fun _ => none) 1 [] "ab".toList
    "ab".toList rfl

/-- The condition-expression grammar of the templates (section 4.2 of the
specification): comparisons between names and string/boolean literals,
boolean connectives. -/
inductive CExpr where
  | name (s : String)
  | strLit (s : String)
  | boolLit (b : Bool)
  | eq (a b : CExpr)
  | ne (a b : CExpr)
  | lt (a b : CExpr)
  | le (a b : CExpr)
  | gt (a b : CExpr)
  | ge (a b : CExpr)
  | and (a b : CExpr)
  | or (a b : CExpr)
  | not (a : CExpr)

/-- A Python value a condition can produce: the environment's constants are
strings, literals are strings or booleans, and a name that resolves through
the builtins module is a builtin object (compared by identity). -/
inductive PyVal where
  | str (s : String)
  | bool (b : Bool)
  | builtin (name : String)
deriving DecidableEq

/-- The exceptions `eval` can raise on this grammar: `NameError` for an
unresolvable name, `TypeError` for an unsupported order comparison. -/
inductive PyErr where
  | nameError (s : String)
  | typeError
deriving DecidableEq

/-- The public names of Python's builtins module (CPython 3.11, with the
names the `site` module installs for interactive use).
`eval(condition, {}, constants)` passes empty globals, and Python inserts a
reference to the builtins module into globals missing a `__builtins__` key,
so every one of these names resolves even when absent from `constants`.
The keyword constants `True`, `False` and `None` are parsed as literals,
never looked up as names, and so are omitted. -/
def pyBuiltins : List String :=
  ["ArithmeticError", "AssertionError", "AttributeError", "BaseException",
   "BaseExceptionGroup", "BlockingIOError", "BrokenPipeError", "BufferError",
   "BytesWarning", "ChildProcessError", "ConnectionAbortedError",
   "ConnectionError", "ConnectionRefusedError", "ConnectionResetError",
   "DeprecationWarning", "EOFError", "Ellipsis", "EncodingWarning",
   "EnvironmentError", "Exception", "ExceptionGroup", "FileExistsError",
   "FileNotFoundError", "FloatingPointError", "FutureWarning",
   "GeneratorExit", "IOError", "ImportError", "ImportWarning",
   "IndentationError", "IndexError", "InterruptedError", "IsADirectoryError",
   "KeyError", "KeyboardInterrupt", "LookupError", "MemoryError",
   "ModuleNotFoundError", "NameError", "NotADirectoryError",
   "NotImplemented", "NotImplementedError", "OSError", "OverflowError",
   "PendingDeprecationWarning", "PermissionError", "ProcessLookupError",
   "RecursionError", "ReferenceError", "ResourceWarning", "RuntimeError",
   "RuntimeWarning", "StopAsyncIteration", "StopIteration", "SyntaxError",
   "SyntaxWarning", "SystemError", "SystemExit", "TabError", "TimeoutError",
   "TypeError", "UnboundLocalError", "UnicodeDecodeError",
   "UnicodeEncodeError", "UnicodeError", "UnicodeTranslateError",
   "UnicodeWarning", "UserWarning", "ValueError", "Warning",
   "ZeroDivisionError", "abs", "aiter", "all", "anext", "any", "ascii",
   "bin", "bool", "breakpoint", "bytearray", "bytes", "callable", "chr",
   "classmethod", "compile", "complex", "copyright", "credits", "delattr",
   "dict", "dir", "divmod", "enumerate", "eval", "exec", "exit", "filter",
   "float", "format", "frozenset", "getattr", "globals", "hasattr", "hash",
   "help", "hex", "id", "input", "int", "isinstance", "issubclass", "iter",
   "len", "license", "list", "locals", "map", "max", "memoryview", "min",
   "next", "object", "oct", "open", "ord", "pow", "print", "property",
   "quit", "range", "repr", "reversed", "round", "set", "setattr", "slice",
   "sorted", "staticmethod", "str", "sum", "super", "tuple", "type", "vars",
   "zip"]

/-- Association-list lookup, the model of a Python `dict` read. -/
def lookupA : List (String × String) → String → Option String
  | [], _ => none
  | (k, v) :: r, s => if k = s then some v else lookupA r s

/-- Python truthiness of the values of this grammar. -/
def truthy : PyVal → Bool
  | .str s => s ≠ ""
  | .bool b => b
  | .builtin _ => true

/-- Python `==` on the values of this grammar: equal types compare by
value (builtins by identity), mixed types compare unequal. -/
def pyEq : PyVal → PyVal → Bool
  | .str a, .str b => a == b
  | .bool a, .bool b => a == b
  | .builtin a, .builtin b => a == b
  | _, _ => false

/-- Python `<` on the values of this grammar: strings lexicographically,
booleans as the integers 0 and 1, anything else `TypeError`. -/
def pyLt : PyVal → PyVal → Except PyErr Bool
  | .str a, .str b => .ok (decide (a < b))
  | .bool a, .bool b => .ok (!a && b)
  | _, _ => .error .typeError

/-- Python `<=` on the values of this grammar. -/
def pyLe : PyVal → PyVal → Except PyErr Bool
  | .str a, .str b => .ok (decide (a < b) || a == b)
  | .bool a, .bool b => .ok (!a || b)
  | _, _ => .error .typeError

/-- Line 151, `eval_condition`: `eval(condition, {}, constants)`.  Name
resolution follows Python's rules for `eval` with empty globals: the locals
mapping `constants` first (yielding a string), then the builtins module,
else `NameError`.  `and`/`or` short-circuit and return an operand;
`not` returns a boolean.  The function is pure and total by
construction. -/
def evalCondition : CExpr → List (String × String) → Except PyErr PyVal
  | .name s, env =>
    match lookupA env s with
    | some v => .ok (.str v)
    | none =>
      if pyBuiltins.contains s then .ok (.builtin s) else .error (.nameError s)
  | .strLit s, _ => .ok (.str s)
  | .boolLit b, _ => .ok (.bool b)
  | .eq a b, env => do
    let x ← evalCondition a env
    let y ← evalCondition b env
    .ok (.bool (pyEq x y))
  | .ne a b, env => do
    let x ← evalCondition a env
    let y ← evalCondition b env
    .ok (.bool (!pyEq x y))
  | .lt a b, env => do
    let x ← evalCondition a env
    let y ← evalCondition b env
    let r ← pyLt x y
    .ok (.bool r)
  | .le a b, env => do
    let x ← evalCondition a env
    let y ← evalCondition b env
    let r ← pyLe x y
    .ok (.bool r)
  | .gt a b, env => do
    let x ← evalCondition a env
    let y ← evalCondition b env
    let r ← pyLt y x
    .ok (.bool r)
  | .ge a b, env => do
    let x ← evalCondition a env
    let y ← evalCondition b env
    let r ← pyLe y x
    .ok (.bool r)
  | .and a b, env => do
    let x ← evalCondition a env
    if truthy x then evalCondition b env else .ok x
  | .or a b, env => do
    let x ← evalCondition a env
    if truthy x then .ok x else evalCondition b env
  | .not a, env => do
    let x ← evalCondition a env
    .ok (.bool (!truthy x))

/-- C3 counterexample: the expression `abs == "x"` references the symbol
`abs`, absent from the (empty) constants, yet evaluates without error to
`False`: `eval`'s empty globals still expose Python's builtins, so `abs`
resolves to the builtin instead of raising. -/
theorem evalCondition_builtin_no_error :
    evalCondition (.eq (.name "abs") (.strLit "x")) [] = .ok (.bool false) := rfl

/-- C3 (amended): the evaluator is a pure total function over the grammar;
evaluating a name absent from the environment's constants raises
`NameError` (the specification's UndefinedSymbolError) unless the name is a
Python builtin, in which case it resolves to the builtin object without
error; a name inside a short-circuited operand is never evaluated and
raises nothing. -/
theorem evalCondition_missing_symbol :
    (∀ (s : String) (env : List (String × String)), lookupA env s = none →
      pyBuiltins.contains s = false →
      evalCondition (.name s) env = .error (.nameError s)) ∧
    (∀ (s : String) (env : List (String × String)), lookupA env s = none →
      pyBuiltins.contains s = true →
      evalCondition (.name s) env = .ok (.builtin s)) ∧
    evalCondition (.and (.boolLit false) (.name "NO_SUCH_SYMBOL")) [] =
      .ok (.bool false) := by
  refine ⟨?_, ?_, rfl⟩
  · intro s env h1 h2
    rw [evalCondition, h1]
    simp at h2
    simp [h2]
  · intro s env h1 h2
    rw [evalCondition, h1]
    simp at h2
    simp [h2]

/-- Witness for `evalCondition_missing_symbol`: an undefined template
symbol raises `NameError`; the builtin name `len` resolves instead. -/
theorem evalCondition_missing_symbol_witness :
    evalCondition (.name "KIND_UNKNOWN") [("KIND", "Int")] =
      .error (.nameError "KIND_UNKNOWN") ∧
    evalCondition (.name "len") [] = .ok (.builtin "len") :=
  ⟨evalCondition_missing_symbol.1 "KIND_UNKNOWN" [("KIND", "Int")] rfl rfl,
    evalCondition_missing_symbol.2.1 "len" [] rfl rfl⟩

/-- A registered template as the change-detection logic sees it: its
identity (the resolved template path) and the digest of its current
content. -/
structure Tmpl where
  name : String
  digest : String

/-- Lines 1010-1023, `is_template_changed`: a template is changed when the
stored digest map has no entry for it or the stored digest differs from the
current one (`hashes.get(template_file) != template_hash`). -/
def is_template_changed (stored : List (String × String)) (t : Tmpl) : Bool :=
  !(lookupA stored t.name == some t.digest)

/-- The `for generator in TEMPLATES` loop of `main` (lines 1052-1055):
expand every changed template in order; a failing expansion aborts the loop
(the raised exception propagates).  Returns the names expanded before the
failure and the failing template's name, if any. -/
def expandChanged (stored : List (String × String)) (expandOk : Tmpl → Bool) :
    List Tmpl → List String × Option String
  | [] => ([], none)
  | t :: ts =>
    if is_template_changed stored t then
      if expandOk t then
        let r := expandChanged stored expandOk ts
        (t.name :: r.1, r.2)
      else ([], some t.name)
    else expandChanged stored expandOk ts

/-- The error of a failed external formatter invocation
(`subprocess.check_call` raising `CalledProcessError`). -/
inductive FmtErr where
  | calledProcess
deriving DecidableEq

/-- Lines 44-93, `format_source_files`, at the granularity the claims need:
when `find_eclipse()` returns `None` the function logs a warning and
returns normally; otherwise a failing formatter invocation raises
`CalledProcessError`, which is not caught.  (The config-file processing is
assumed well-formed and not modelled.) -/
def format_source_files (eclipseFound : Bool) (callOk : Bool) :
    Except FmtErr Unit :=
  if eclipseFound = false then .ok ()
  else if callOk then .ok () else .error .calledProcess

/-- Lines 1026-1034, `write_generated_templates`: the content written to
the cache file — the digest of every registered template, not only the
changed ones. -/
def generated_templates_hashes (templates : List Tmpl) : List (String × String) :=
  templates.map (fun t => (t.name, t.digest))

/-- How a run of `main` (without `--clean`) ends. -/
inductive RunOutcome where
  | success
  | noChange
  | expandFailed (name : String)
  | formatFailed
deriving DecidableEq

/-- Observable result of a run: the templates expanded (in order), the
cache file's content after the run, and how the run ended. -/
structure RunResult where
  expanded : List String
  cache : List (String × String)
  outcome : RunOutcome
deriving DecidableEq

/-- Lines 1047-1063 of `main`: read the stored digests, expand every
changed template, and only if every expansion succeeded and at least one
template changed, run the formatter and then rewrite the cache with the
full current digest set; any raised exception leaves the cache file as it
was (`stored`). -/
def mainRun (templates : List Tmpl) (stored : List (String × String))
    (expandOk : Tmpl → Bool) (eclipseFound : Bool) (formatCallOk : Bool) :
    RunResult :=
  match (expandChanged stored expandOk templates).2 with
  | some t => ⟨(expandChanged stored expandOk templates).1, stored, .expandFailed t⟩
  | none =>
    if (expandChanged stored expandOk templates).1.isEmpty then
      ⟨[], stored, .noChange⟩
    else
      match format_source_files eclipseFound formatCallOk with
      | .error _ =>
        ⟨(expandChanged stored expandOk templates).1, stored, .formatFailed⟩
      | .ok _ =>
        ⟨(expandChanged stored expandOk templates).1,
          generated_templates_hashes templates, .success⟩

theorem expandChanged_none_all_ok {stored : List (String × String)}
    {expandOk : Tmpl → Bool} :
    ∀ {templates : List Tmpl},
      (expandChanged stored expandOk templates).2 = none →
      ∀ t ∈ templates, is_template_changed stored t = true → expandOk t = true := by
  intro templates
  induction templates with
  | nil => intro _ t ht; simp at ht
  | cons u ts ih =>
    intro h t ht hch
    rw [expandChanged] at h
    by_cases hu : is_template_changed stored u = true
    · rw [if_pos hu] at h
      by_cases ho : expandOk u = true
      · rw [if_pos ho] at h
        rcases List.mem_cons.mp ht with rfl | ht'
        · exact ho
        · exact ih h t ht' hch
      · rw [if_neg ho] at h
        exact absurd h (by simp)
    · rw [if_neg hu] at h
      rcases List.mem_cons.mp ht with rfl | ht'
      · exact absurd hch hu
      · exact ih h t ht' hch

theorem expandChanged_fail_isSome {stored : List (String × String)}
    {expandOk : Tmpl → Bool} :
    ∀ {templates : List Tmpl},
      (∃ t ∈ templates, is_template_changed stored t = true ∧ expandOk t = false) →
      (expandChanged stored expandOk templates).2.isSome = true := by
  intro templates
  induction templates with
  | nil => intro ⟨t, ht, _⟩; simp at ht
  | cons u ts ih =>
    intro ⟨t, ht, hch, hok⟩
    rw [expandChanged]
    by_cases hu : is_template_changed stored u = true
    · rw [if_pos hu]
      by_cases ho : expandOk u = true
      · rw [if_pos ho]
        rcases List.mem_cons.mp ht with rfl | ht'
        · exact absurd ho (by simp [hok])
        · exact ih ⟨t, ht', hch, hok⟩
      · rw [if_neg ho]
        rfl
    · rw [if_neg hu]
      rcases List.mem_cons.mp ht with rfl | ht'
      · exact absurd hch hu
      · exact ih ⟨t, ht', hch, hok⟩

theorem expandChanged_all_ok_eq {stored : List (String × String)}
    {expandOk : Tmpl → Bool} :
    ∀ {templates : List Tmpl},
      (∀ t ∈ templates, is_template_changed stored t = true → expandOk t = true) →
      expandChanged stored expandOk templates =
        ((templates.filter (fun t => is_template_changed stored t)).map
          (fun t => t.name), none) := by
  intro templates
  induction templates with
  | nil => intro _; rfl
  | cons u ts ih =>
    intro h
    rw [expandChanged]
    by_cases hu : is_template_changed stored u = true
    · rw [if_pos hu, if_pos (h u (by simp) hu)]
      rw [ih (fun t ht => h t (by simp [ht]))]
      rw [List.filter_cons_of_pos (by simp [hu]), List.map_cons]
    · rw [if_neg hu]
      rw [ih (fun t ht => h t (by simp [ht]))]
      rw [List.filter_cons_of_neg (by simp [hu])]

theorem expandChanged_mem {stored : List (String × String)}
    {expandOk : Tmpl → Bool} :
    ∀ {templates : List Tmpl} {n : String},
      n ∈ (expandChanged stored expandOk templates).1 →
      ∃ t ∈ templates, t.name = n ∧ is_template_changed stored t = true := by
  intro templates
  induction templates with
  | nil => intro n hn; simp [expandChanged] at hn
  | cons u ts ih =>
    intro n hn
    rw [expandChanged] at hn
    by_cases hu : is_template_changed stored u = true
    · rw [if_pos hu] at hn
      by_cases ho : expandOk u = true
      · rw [if_pos ho] at hn
        rcases List.mem_cons.mp hn with rfl | hn'
        · exact ⟨u, by simp, rfl, hu⟩
        · obtain ⟨t, ht, h1, h2⟩ := ih hn'
          exact ⟨t, by simp [ht], h1, h2⟩
      · rw [if_neg ho] at hn
        simp at hn
    · rw [if_neg hu] at hn
      obtain ⟨t, ht, h1, h2⟩ := ih hn
      exact ⟨t, by simp [ht], h1, h2⟩

/-- C6: the persisted cache record changes only when every changed template
expanded successfully, and then it holds the digests of all registered
templates; whenever some changed template fails to expand, the cache file
content equals its pre-run content. -/
theorem cache_full_success_only :
    ∀ (templates : List Tmpl) (stored : List (String × String))
      (expandOk : Tmpl → Bool) (ef fo : Bool),
    ((mainRun templates stored expandOk ef fo).cache ≠ stored →
      (∀ t ∈ templates, is_template_changed stored t = true → expandOk t = true) ∧
      (mainRun templates stored expandOk ef fo).cache =
        generated_templates_hashes templates) ∧
    ((∃ t ∈ templates, is_template_changed stored t = true ∧ expandOk t = false) →
      (mainRun templates stored expandOk ef fo).cache = stored) := by
  intro templates stored expandOk ef fo
  constructor
  · intro hne
    unfold mainRun at hne ⊢
    cases h2 : (expandChanged stored expandOk templates).2 with
    | some t =>
      rw [h2] at hne
      exact absurd rfl hne
    | none =>
      rw [h2] at hne
      dsimp only at hne ⊢
      by_cases he : (expandChanged stored expandOk templates).1.isEmpty = true
      · rw [if_pos he] at hne
        exact absurd rfl hne
      · rw [if_neg he] at hne ⊢
        cases hf : format_source_files ef fo with
        | error e =>
          rw [hf] at hne
          exact absurd rfl hne
        | ok u =>
          exact ⟨expandChanged_none_all_ok h2, rfl⟩
  · intro hex
    have hsome := expandChanged_fail_isSome hex
    unfold mainRun
    cases h2 : (expandChanged stored expandOk templates).2 with
    | some t => rfl
    | none =>
      rw [h2] at hsome
      simp at hsome

/-- Witness for `cache_full_success_only`: a failing expansion leaves the
cache as read; a clean run writes the full digest set. -/
theorem cache_full_success_only_witness :
    (mainRun [⟨"A", "1"⟩] [] (fun _ => false) true true).cache = [] ∧
    (mainRun [⟨"A", "1"⟩] [] (fun _ => true) false true).cache =
      generated_templates_hashes [⟨"A", "1"⟩] :=
  ⟨(cache_full_success_only [⟨"A", "1"⟩] [] (fun _ => false) true true).2
      ⟨⟨"A", "1"⟩, by simp, rfl, rfl⟩,
    ((cache_full_success_only [⟨"A", "1"⟩] [] (fun _ => true) false true).1
      (by decide)).2⟩

/-- C7 counterexample: in a run aborted by an earlier expansion failure, a
changed template is not re-expanded.  `A` and `B` are both changed (the
stored map is empty); `A` fails, the run aborts, and `B` — though changed —
is expanded by nobody. -/
theorem changed_template_skipped_after_failure :
    mainRun [⟨"A", "1"⟩, ⟨"B", "2"⟩] [] (fun t => t.name == "B") true true =
      ⟨[], [], .expandFailed "A"⟩ ∧
    is_template_changed [] ⟨"B", "2"⟩ = true := ⟨rfl, rfl⟩

/-- C7 (amended): in a run in which no expansion fails, the expanded
templates are exactly the changed ones, in registration order; in every run
only changed templates are expanded; and a run in which no template changed
expands nothing, leaves the cache as read and reports no change.  A failed
expansion aborts the run, leaving later changed templates unexpanded. -/
theorem expanded_iff_changed :
    ∀ (templates : List Tmpl) (stored : List (String × String))
      (expandOk : Tmpl → Bool) (ef fo : Bool),
    ((∀ t ∈ templates, is_template_changed stored t = true → expandOk t = true) →
      (mainRun templates stored expandOk ef fo).expanded =
        (templates.filter (fun t => is_template_changed stored t)).map
          (fun t => t.name)) ∧
    (∀ n ∈ (mainRun templates stored expandOk ef fo).expanded,
      ∃ t ∈ templates, t.name = n ∧ is_template_changed stored t = true) ∧
    ((∀ t ∈ templates, is_template_changed stored t = false) →
      mainRun templates stored expandOk ef fo = ⟨[], stored, .noChange⟩) := by
  intro templates stored expandOk ef fo
  refine ⟨?_, ?_, ?_⟩
  · intro hall
    have he := expandChanged_all_ok_eq hall
    unfold mainRun
    rw [he]
    dsimp only
    by_cases hemp :
        ((templates.filter (fun t => is_template_changed stored t)).map
          (fun t => t.name)).isEmpty = true
    · rw [if_pos hemp]
      rw [List.isEmpty_iff] at hemp
      exact hemp.symm
    · rw [if_neg hemp]
      cases format_source_files ef fo with
      | error e => rfl
      | ok u => rfl
  · intro n hn
    unfold mainRun at hn
    cases h2 : (expandChanged stored expandOk templates).2 with
    | some t =>
      rw [h2] at hn
      exact expandChanged_mem hn
    | none =>
      rw [h2] at hn
      dsimp only at hn
      by_cases hemp : (expandChanged stored expandOk templates).1.isEmpty = true
      · rw [if_pos hemp] at hn
        simp at hn
      · rw [if_neg hemp] at hn
        cases hf : format_source_files ef fo with
        | error e =>
          rw [hf] at hn
          exact expandChanged_mem hn
        | ok u =>
          rw [hf] at hn
          exact expandChanged_mem hn
  · intro hno
    have hall : ∀ t ∈ templates,
        is_template_changed stored t = true → expandOk t = true :=
      fun t ht hc => absurd hc (by simp [hno t ht])
    have he := expandChanged_all_ok_eq hall
    have hfil : templates.filter (fun t => is_template_changed stored t) = [] := by
      rw [List.filter_eq_nil_iff]
      intro t ht
      simp [hno t ht]
    unfold mainRun
    rw [he, hfil]
    rfl

/-- Witness for `expanded_iff_changed`: with one changed and one unchanged
template, exactly the changed one is expanded; with nothing changed, the
run is a no-op. -/
theorem expanded_iff_changed_witness :
    (mainRun [⟨"A", "1"⟩, ⟨"B", "2"⟩] [("B", "2")] (fun _ => true) false true).expanded =
      (([⟨"A", "1"⟩, ⟨"B", "2"⟩] : List Tmpl).filter
        (fun t => is_template_changed [("B", "2")] t)).map (fun t => t.name) ∧
    mainRun [⟨"A", "1"⟩] [("A", "1")] (fun _ => true) true true =
      ⟨[], [("A", "1")], .noChange⟩ :=
  ⟨(expanded_iff_changed [⟨"A", "1"⟩, ⟨"B", "2"⟩] [("B", "2")] (fun _ => true)
      false true).1 (fun t _ _ => rfl),
    (expanded_iff_changed [⟨"A", "1"⟩] [("A", "1")] (fun _ => true) true true).2.2
      (by decide)⟩

/-- C9 counterexample: a failing formatter invocation aborts the run — the
single changed template expands, `subprocess.check_call` raises, the raised
`CalledProcessError` propagates out of `main`, and the cache is not
rewritten.  The claim that a formatting failure is only a warning is false;
only the absence of the formatter is. -/
theorem formatting_failure_aborts :
    mainRun [⟨"T", "d"⟩] [] (fun _ => true) true false =
      ⟨["T"], [], .formatFailed⟩ := rfl

/-- C9 (amended): when the external formatter is absent,
`format_source_files` only logs a warning and the run continues to a
successful cache rewrite; when the formatter is present but its invocation
fails, the raised error is not caught and the run aborts with the cache
left at its pre-run content. -/
theorem formatting_absence_warns_failure_aborts :
    (∀ (c : Bool), format_source_files false c = .ok ()) ∧
    (∀ (templates : List Tmpl) (stored : List (String × String))
        (expandOk : Tmpl → Bool) (c : Bool),
      (∀ t ∈ templates, is_template_changed stored t = true → expandOk t = true) →
      (∃ t ∈ templates, is_template_changed stored t = true) →
      (mainRun templates stored expandOk false c).outcome = .success ∧
      (mainRun templates stored expandOk false c).cache =
        generated_templates_hashes templates) ∧
    (∀ (templates : List Tmpl) (stored : List (String × String))
        (expandOk : Tmpl → Bool),
      (∀ t ∈ templates, is_template_changed stored t = true → expandOk t = true) →
      (∃ t ∈ templates, is_template_changed stored t = true) →
      (mainRun templates stored expandOk true false).outcome = .formatFailed ∧
      (mainRun templates stored expandOk true false).cache = stored) := by
  have hne : ∀ (templates : List Tmpl) (stored : List (String × String))
      (expandOk : Tmpl → Bool),
      (∀ t ∈ templates, is_template_changed stored t = true → expandOk t = true) →
      (∃ t ∈ templates, is_template_changed stored t = true) →
      ((templates.filter (fun t => is_template_changed stored t)).map
        (fun t => t.name)).isEmpty = false := by
    intro templates stored expandOk hall ⟨t, ht, hch⟩
    have hm : t.name ∈ (templates.filter (fun t => is_template_changed stored t)).map
        (fun t => t.name) :=
      List.mem_map_of_mem _ (List.mem_filter.mpr ⟨ht, hch⟩)
    cases hl : (templates.filter (fun t => is_template_changed stored t)).map
        (fun t => t.name) with
    | nil =>
      rw [hl] at hm
      simp at hm
    | cons a l => rfl
  refine ⟨fun c => rfl, ?_, ?_⟩
  · intro templates stored expandOk c hall hex
    have he := expandChanged_all_ok_eq hall
    unfold mainRun
    rw [he]
    dsimp only
    rw [if_neg (by simp [hne templates stored expandOk hall hex])]
    exact ⟨rfl, rfl⟩
  · intro templates stored expandOk hall hex
    have he := expandChanged_all_ok_eq hall
    unfold mainRun
    rw [he]
    dsimp only
    rw [if_neg (by simp [hne templates stored expandOk hall hex])]
    exact ⟨rfl, rfl⟩

/-- Witness for `formatting_absence_warns_failure_aborts` at a one-template
run. -/
theorem formatting_absence_witness :
    format_source_files false false = .ok () ∧
    (mainRun [⟨"T", "d"⟩] [] (fun _ => true) false false).outcome = .success ∧
    (mainRun [⟨"T", "d"⟩] [] (fun _ => true) true false).cache = [] :=
  ⟨formatting_absence_warns_failure_aborts.1 false,
    ((formatting_absence_warns_failure_aborts.2.1 [⟨"T", "d"⟩] [] (fun _ => true)
      false (fun t _ _ => rfl) ⟨⟨"T", "d"⟩, by simp, rfl⟩)).1,
    ((formatting_absence_warns_failure_aborts.2.2 [⟨"T", "d"⟩] [] (fun _ => true)
      (fun t _ _ => rfl) ⟨⟨"T", "d"⟩, by simp, rfl⟩)).2⟩

/-- A file write: create or overwrite the entry at `p` in the file-system
association list. -/
def setAssoc : List (String × String) → String → String → List (String × String)
  | [], p, c => [(p, c)]
  | (k, v) :: r, p, c =>
    if k = p then (k, c) :: r else (k, v) :: setAssoc r p c

/-- Lines 474-512, `generate_template_sources`, at file-system granularity:
for every binding tuple in registration order, render the output text
(environment building, `config_func` and `generate_sourcefile` folded into
`render`) and write it to `pathFor tuple`, collecting the written paths; a
failing render raises `Exception("Failed to generate {filename}")`,
modelled as `.error` carrying the path.  No check relates the paths of
distinct tuples. -/
def generate_template_sources {α : Type} (tuples : List α) (pathFor : α → String)
    (render : α → Except String String) (fs : List (String × String)) :
    Except String (List String × List (String × String)) :=
  match tuples with
  | [] => .ok ([], fs)
  | t :: ts =>
    match render t with
    | .error _ => .error (pathFor t)
    | .ok content =>
      match generate_template_sources ts pathFor render
          (setAssoc fs (pathFor t) content) with
      | .error e => .error e
      | .ok (files, fs') => .ok (pathFor t :: files, fs')

/-- The file system after all tuples of one template are written. -/
def writeAll {α : Type} (pathFor : α → String) (val : α → String)
    (fs : List (String × String)) (tuples : List α) : List (String × String) :=
  tuples.foldl (fun acc t => setAssoc acc (pathFor t) (val t)) fs

theorem lookupA_setAssoc_self (fs : List (String × String)) (p c : String) :
    lookupA (setAssoc fs p c) p = some c := by
  induction fs with
  | nil => simp [setAssoc, lookupA]
  | cons kv r ih =>
    obtain ⟨k, v⟩ := kv
    by_cases hk : k = p
    · rw [setAssoc, if_pos hk, lookupA, if_pos hk]
    · rw [setAssoc, if_neg hk, lookupA, if_neg hk]
      exact ih

theorem lookupA_setAssoc_ne (fs : List (String × String)) {p q : String}
    (c : String) (h : p ≠ q) : lookupA (setAssoc fs p c) q = lookupA fs q := by
  induction fs with
  | nil => simp [setAssoc, lookupA, h]
  | cons kv r ih =>
    obtain ⟨k, v⟩ := kv
    by_cases hk : k = p
    · subst hk
      simp [setAssoc, lookupA, h]
    · simp [setAssoc, lookupA, hk, ih]

theorem writeAll_lookup {α : Type} (pathFor : α → String) (val : α → String) :
    ∀ (tuples : List α) (fs : List (String × String)) (p : String),
      lookupA (writeAll pathFor val fs tuples) p =
        match (tuples.filter (fun t => pathFor t == p)).getLast? with
        | none => lookupA fs p
        | some t => some (val t) := by
  intro tuples
  induction tuples with
  | nil => intro fs p; rfl
  | cons t ts ih =>
    intro fs p
    rw [writeAll, List.foldl_cons]
    have hstep : List.foldl (fun acc u => setAssoc acc (pathFor u) (val u))
        (setAssoc fs (pathFor t) (val t)) ts =
        writeAll pathFor val (setAssoc fs (pathFor t) (val t)) ts := rfl
    rw [hstep, ih]
    cases hl : (ts.filter (fun u => pathFor u == p)).getLast? with
    | some u =>
      have hgl : ((t :: ts).filter (fun u => pathFor u == p)).getLast? = some u := by
        by_cases hp : (pathFor t == p) = true
        · rw [List.filter_cons, if_pos hp]
          cases hf : ts.filter (fun u => pathFor u == p) with
          | nil => rw [hf] at hl; simp at hl
          | cons a l =>
            rw [hf] at hl
            rw [List.getLast?_cons_cons]
            exact hl
        · rw [List.filter_cons, if_neg hp]
          exact hl
      rw [hgl]
    | none =>
      have hf : ts.filter (fun u => pathFor u == p) = [] := by
        cases hf : ts.filter (fun u => pathFor u == p) with
        | nil => rfl
        | cons a l => rw [hf] at hl; simp at hl
      by_cases hp : (pathFor t == p) = true
      · have hgl : ((t :: ts).filter (fun u => pathFor u == p)).getLast? = some t := by
          rw [List.filter_cons, if_pos hp, hf]
          rfl
        rw [hgl]
        have hpe : pathFor t = p := by simpa using hp
        rw [← hpe, lookupA_setAssoc_self]
      · have hgl : ((t :: ts).filter (fun u => pathFor u == p)).getLast? = none := by
          rw [List.filter_cons, if_neg hp, hf]
          rfl
        rw [hgl]
        have hpe : pathFor t ≠ p := by simpa using hp
        rw [lookupA_setAssoc_ne fs (val t) hpe]

theorem generate_template_sources_all_ok {α : Type} (pathFor : α → String)
    (val : α → String) :
    ∀ (tuples : List α) (fs : List (String × String)),
      generate_template_sources tuples pathFor (fun t => .ok (val t)) fs =
        .ok (tuples.map pathFor, writeAll pathFor val fs tuples) := by
  intro tuples
  induction tuples with
  | nil => intro fs; rfl
  | cons t ts ih =>
    intro fs
    rw [generate_template_sources]
    dsimp only
    rw [ih]
    rfl

/-- C8 counterexample: two distinct tuples of one template mapping to the
same output path raise nothing — expansion succeeds, the second write
silently overwrites the first, and the shared path is reported twice among
the generated files.  No `OutputCollisionError` (or any guard) exists. -/
theorem colliding_paths_overwrite_silently :
    generate_template_sources [0, 1] (fun _ => "p")
        (fun i => .ok (toString i)) [] = .ok (["p", "p"], [("p", "1")]) := rfl

/-- C8 (amended): expansion performs no output-path collision check.  With
every render succeeding it returns success with one generated-file entry
per binding tuple, duplicates included, and the file finally stored at any
path is the render of the last tuple mapping to it — an earlier colliding
tuple's output is silently overwritten; paths no tuple maps to keep their
prior content. -/
theorem generate_template_sources_last_writer_wins :
    ∀ {α : Type} (tuples : List α) (pathFor : α → String) (val : α → String)
      (fs : List (String × String)),
    generate_template_sources tuples pathFor (fun t => .ok (val t)) fs =
      .ok (tuples.map pathFor, writeAll pathFor val fs tuples) ∧
    ∀ p, lookupA (writeAll pathFor val fs tuples) p =
      match (tuples.filter (fun t => pathFor t == p)).getLast? with
      | none => lookupA fs p
      | some t => some (val t) := by
  intro α tuples pathFor val fs
  exact ⟨generate_template_sources_all_ok pathFor val tuples fs,
    fun p => writeAll_lookup pathFor val tuples fs p⟩
